import Mathlib

set_option maxHeartbeats 1000000

/-!
Verification development for the recursive Gaussian blur engine in
tools/gauss_blur.cc (jxl).  The numerical kernels are embedded over exact
rational / real arithmetic (the C++ code computes in float/double; the claims
under study concern the algebraic structure of the recursions, the boundary
handling, the strip decomposition and the index bounds, all of which are
arithmetic-precision independent).  Machine loops are embedded as structural
recursions, the SIMD ring buffer as a function out of ZMod 4 (the C code masks
a two's-complement index with kRingBufferMask = 3, which is exactly reduction
mod 4).
-/

open Real

/-! ## Vertical pass: per-mode state update of VerticalBlock (gauss_blur.cc lines 264-300)

The highway intrinsics used by the update are MulAdd (a * b + c) and
NegMulSub (-(a * b) - c).  A mode's ring buffer holds kRingBufferLen = 4
history slots; slot indices are computed as (n - j) & kRingBufferMask with
kRingBufferMask = 3, i.e. the integer n - j reduced mod 4. -/

/-- MulAdd intrinsic: a * b + c. -/
def mulAdd (a b c : ℚ) : ℚ := a * b + c

/-- NegMulSub intrinsic: -(a * b) - c. -/
def negMulSub (a b c : ℚ) : ℚ := -(a * b) - c

/-- Ring-buffer slot for row index n: (n & kRingBufferMask) on a two's-complement
ssize_t equals n mod 4. -/
def ringIdx (n : ℤ) : ZMod 4 := (n : ZMod 4)

/-- One VerticalBlock update for a single mode and a single lane (gauss_blur.cc
lines 283-295): read the two most recently stored states from ring slots
(n-1) & 3 and (n-2) & 3, compute y = MulAdd(n2, sum, NegMulSub(d1, y1, y2)),
store it at slot n & 3. -/
def verticalBlockModeStep (d1 n2 sum : ℚ) (n : ℤ) (buf : ZMod 4 → ℚ) : ZMod 4 → ℚ :=
  Function.update buf (ringIdx n)
    (mulAdd n2 sum (negMulSub d1 (buf (ringIdx (n - 1))) (buf (ringIdx (n - 2)))))

/-- The scan VerticalStrip performs for one mode and one lane: the ring buffer
starts zeroed (memset, line 331) and steps n0, n0+1, ... are processed in order
(n0 = -N + 1 in the source); sums gives the filter input of each step. -/
def verticalScan (d1 n2 : ℚ) (sums : ℤ → ℚ) (n0 : ℤ) : ℕ → (ZMod 4 → ℚ)
  | 0 => fun _ => 0
  | t + 1 => verticalBlockModeStep d1 n2 (sums (n0 + t)) (n0 + t) (verticalScan d1 n2 sums n0 t)

/-- Direct second-order recursion y[n] = n2 * sum[n] - d1 * y[n-1] - y[n-2]
with zero initial history, indexed by the step count t (step t is row n0 + t). -/
def yRec (d1 n2 : ℚ) (sums : ℤ → ℚ) (n0 : ℤ) : ℕ → ℚ
  | 0 => n2 * sums n0
  | 1 => n2 * sums (n0 + 1) - d1 * yRec d1 n2 sums n0 0
  | t + 2 => n2 * sums (n0 + t + 2) - d1 * yRec d1 n2 sums n0 (t + 1) - yRec d1 n2 sums n0 t

/-- Update formula as written in the specification text:
y[n] = n2 * sum - d1 * y[n-1] + y[n-2] (note the + on the y[n-2] term). -/
def specVerticalUpdate (n2 d1 sum y1 y2 : ℚ) : ℚ := n2 * sum - d1 * y1 + y2

/-- Concrete impulse input used for the C1 counterexample. -/
def cSums : ℤ → ℚ := fun m => if m = 0 then 1 else 0

/-! ## Horizontal pass: 4-way expansion coefficients (CreateRecursiveGaussian,
gauss_blur.cc lines 499-521) and the unrolled interior step of FastGaussian1D
(lines 119-176). -/

/-- Coefficients rg.mul_prev[4i + lane] with d = d1[i] (lines 510-513). -/
def hwMulPrev (d : ℝ) : Fin 4 → ℝ
  | 0 => -d
  | 1 => d * d - 1
  | 2 => -(d * d) * d + 2 * d
  | 3 => (d * d) * (d * d) - 3 * (d * d) + 1

/-- Coefficients rg.mul_prev2[4i + lane] (lines 514-517). -/
def hwMulPrev2 (d : ℝ) : Fin 4 → ℝ
  | 0 => -1
  | 1 => d
  | 2 => -(d * d) + 1
  | 3 => (d * d) * d - 2 * d

/-- Coefficients rg.mul_in[4i + lane] with n = n2[i] (lines 518-521). -/
def hwMulIn (n d : ℝ) : Fin 4 → ℝ
  | 0 => n
  | 1 => -d * n
  | 2 => (d * d) * n - n
  | 3 => -(d * d) * d * n + 2 * d * n

/-- Lane j of the output vector computed by one interior iteration of
FastGaussian1D (lines 128-158): the broadcast input i_m is multiplied by
ShiftLeftLanes m of the mul_in vector (lane j of that shift is mul_in[j - m],
zero for m > j), and the broadcast carries p = prev, pp = prev2 are multiplied
by mul_prev[j] and mul_prev2[j]. -/
def laneOut (n d p pp i0 i1 i2 i3 : ℝ) : Fin 4 → ℝ
  | 0 => i0 * hwMulIn n d 0 + hwMulPrev2 d 0 * pp + hwMulPrev d 0 * p
  | 1 => i0 * hwMulIn n d 1 + i1 * hwMulIn n d 0 + hwMulPrev2 d 1 * pp + hwMulPrev d 1 * p
  | 2 => i0 * hwMulIn n d 2 + i1 * hwMulIn n d 1 + i2 * hwMulIn n d 0
      + hwMulPrev2 d 2 * pp + hwMulPrev d 2 * p
  | 3 => i0 * hwMulIn n d 3 + i1 * hwMulIn n d 2 + i2 * hwMulIn n d 1 + i3 * hwMulIn n d 0
      + hwMulPrev2 d 3 * pp + hwMulPrev d 3 * p

/-- Four sequential applications of the direct second-order recursion
o_j = n * i_j - d * o_(j-1) - o_(j-2) starting from history p = o_(-1),
pp = o_(-2) (the expansion documented at gauss_blur.cc lines 501-509). -/
def directO (n d p pp i0 i1 i2 i3 : ℝ) : Fin 4 → ℝ :=
  fun j =>
    let o0 := n * i0 - d * p - pp
    let o1 := n * i1 - d * o0 - p
    let o2 := n * i2 - d * o1 - o0
    let o3 := n * i3 - d * o2 - o1
    match j with
    | 0 => o0
    | 1 => o1
    | 2 => o2
    | 3 => o3


/-! ## Horizontal pass: boundary phases of FastGaussian1D (gauss_blur.cc
lines 74-106 left boundary, lines 178-206 remainder).  Both phases run the same
scalar body: guarded loads, one second-order update per mode, guarded store.
The state is prev/prev2 per mode (lane 0 of the corresponding vectors); the
coefficients mi, mp, mp2 are lane 0 of rg.mul_in, rg.mul_prev, rg.mul_prev2. -/

/-- Per-mode prev/prev2 history carried by FastGaussian1D. -/
structure HBState where
  prev : Fin 3 → ℚ
  prev2 : Fin 3 → ℚ

/-- Guarded left load (line 80): in[n - N - 1] if the index is nonnegative,
else 0. -/
def leftVal (Nr : ℤ) (inRow : ℤ → ℚ) (n : ℤ) : ℚ :=
  if 0 ≤ n - Nr - 1 then inRow (n - Nr - 1) else 0

/-- Guarded right load (line 81): in[n + N - 1] if the index is below xsize,
else 0. -/
def rightVal (xsize Nr : ℤ) (inRow : ℤ → ℚ) (n : ℤ) : ℚ :=
  if n + Nr - 1 < xsize then inRow (n + Nr - 1) else 0

/-- Filter input of a boundary step (line 82). -/
def boundarySum (xsize Nr : ℤ) (inRow : ℤ → ℚ) (n : ℤ) : ℚ :=
  leftVal Nr inRow n + rightVal xsize Nr inRow n

/-- Lane-0 output of one mode in a boundary step (lines 85-98):
out = sum * mul_in + mul_prev2 * prev2 + mul_prev * prev. -/
def modeOut (mi mp mp2 : Fin 3 → ℚ) (sum : ℚ) (st : HBState) : Fin 3 → ℚ :=
  fun k => sum * mi k + mp2 k * st.prev2 k + mp k * st.prev k

/-- One boundary-phase step of FastGaussian1D: new prev is the mode output,
new prev2 is the old prev, and the output sample (sum of the three modes) is
written only once n is nonnegative (line 103). -/
def boundaryStep (mi mp mp2 : Fin 3 → ℚ) (xsize Nr : ℤ) (inRow : ℤ → ℚ) (n : ℤ)
    (st : HBState) : HBState × Option ℚ :=
  (⟨modeOut mi mp mp2 (boundarySum xsize Nr inRow n) st, st.prev⟩,
    if 0 ≤ n then
      some (modeOut mi mp mp2 (boundarySum xsize Nr inRow n) st 0 +
        (modeOut mi mp mp2 (boundarySum xsize Nr inRow n) st 1 +
          modeOut mi mp mp2 (boundarySum xsize Nr inRow n) st 2))
    else none)

/-- Explicit zero-padding of a row of xsize samples to all of ZZ. -/
def padRow (xsize : ℤ) (inRow : ℤ → ℚ) : ℤ → ℚ :=
  fun m => if 0 ≤ m ∧ m < xsize then inRow m else 0

/-- Modelled from the spec: the reference boundary step computed on an
explicitly zero-padded array, with unguarded symmetric loads
row[n - N - 1] + row[n + N - 1]. -/
def paddedRefStep (mi mp mp2 : Fin 3 → ℚ) (Nr : ℤ) (row : ℤ → ℚ) (n : ℤ)
    (st : HBState) : HBState × Option ℚ :=
  (⟨modeOut mi mp mp2 (row (n - Nr - 1) + row (n + Nr - 1)) st, st.prev⟩,
    if 0 ≤ n then
      some (modeOut mi mp mp2 (row (n - Nr - 1) + row (n + Nr - 1)) st 0 +
        (modeOut mi mp mp2 (row (n - Nr - 1) + row (n + Nr - 1)) st 1 +
          modeOut mi mp mp2 (row (n - Nr - 1) + row (n + Nr - 1)) st 2))
    else none)

/-- Concrete coefficients for the C6 witness. -/
def cCoef : Fin 3 → ℚ := fun _ => 1

/-- Concrete row for the C6 witness. -/
def cRow : ℤ → ℚ := fun m => (m : ℚ)

/-- Concrete state for the C6 witness. -/
def cState : HBState := ⟨fun _ => 0, fun _ => 0⟩

/-! ## Interior loop bounds of FastGaussian1D (gauss_blur.cc lines 74-77 and
119-176).  JXL_GAUSS_MAX_LANES = 4, so the loop guard n < xsize - N + 1 - 3
and Lanes(d) is 1, 2 or 4. -/

/-- RoundUpTo from lib/jxl/base/common.h, as used at line 76 (nonnegative
arguments): (what + align - 1) / align * align. -/
def roundUpToI (what align : ℤ) : ℤ := (what + align - 1) / align * align

/-- The first vector-aligned index reached by the left-boundary loop
(line 76): RoundUpTo(N + 1, Lanes(d)). -/
def firstAligned (N L : ℤ) : ℤ := roundUpToI (N + 1) L


/-! ## Vertical pass driver: strip decomposition of FastGaussianVertical
(gauss_blur.cc lines 377-412).  kCacheLineLanes = 64 / sizeof(float) = 16,
unroll = max(16 / Lanes, 4), fast_pace = unroll * Lanes.  Full-width strips
(kVectors = unroll in {4, 8, 16}) run while x + fast_pace <= xsize; remaining
columns are covered by kVectors = 1 strips of width Lanes while x < xsize.
A strip starting at x with kVectors vectors touches column offsets
x .. x + kVectors * Lanes - 1 (VerticalBlock loads, stores and OutputStore all
address pos + idx_vec with idx_vec < kVectors * Lanes). -/

/-- Per-call unroll factor (line 383): max(kCacheLineLanes / Lanes, 4). -/
def unrollOf (L : ℕ) : ℕ := max (16 / L) 4

/-- Columns advanced per full-width strip (line 384): unroll * Lanes. -/
def fastPace (L : ℕ) : ℕ := unrollOf L * L

/-- True when the unroll factor hits one of the three compiled branches
(lines 393-406); otherwise the source hits JXL_UNREACHABLE. -/
def validUnroll (L : ℕ) : Bool :=
  unrollOf L == 4 || unrollOf L == 8 || unrollOf L == 16

/-- Start columns of the full-width strips: the loop for
(x = 0; x + fast_pace <= xsize; x += fast_pace). -/
def fullStarts (fp xsize x : ℕ) : List ℕ :=
  if _h : 0 < fp ∧ x + fp ≤ xsize then x :: fullStarts fp xsize (x + fp) else []
termination_by xsize - x
decreasing_by omega

/-- Start columns of the kVectors = 1 remainder strips: the loop for
(; x < xsize; x += Lanes). -/
def remStarts (L xsize x : ℕ) : List ℕ :=
  if _h : 0 < L ∧ x < xsize then x :: remStarts L xsize (x + L) else []
termination_by xsize - x
decreasing_by omega

/-- The full strip decomposition of one FastGaussianVertical call: pairs
(start column, strip width in columns).  The remainder loop resumes at the
value of x left by the full-width loop, i.e. fast_pace times the number of
full strips. -/
def verticalStrips (L xsize : ℕ) : List (ℕ × ℕ) :=
  (fullStarts (fastPace L) xsize 0).map (fun s => (s, fastPace L)) ++
    (remStarts L xsize
        (fastPace L * (fullStarts (fastPace L) xsize 0).length)).map
      (fun s => (s, L))

/-- Column c is touched by the strip (start, width). -/
def inStrip (c : ℕ) (sw : ℕ × ℕ) : Bool :=
  decide (sw.1 ≤ c) && decide (c < sw.1 + sw.2)

/-- Column offset o is accessed by some strip of the decomposition. -/
def accessedCol (L xsize o : ℕ) : Bool := (verticalStrips L xsize).any (inStrip o)

/-! ## FastGaussianVertical as a whole (gauss_blur.cc lines 377-412): scratch
allocation happens before any strip processing; on allocation failure
JXL_ASSIGN_OR_RETURN returns a failure status immediately, so the output plane
is untouched.  AlignedMemory::Create is external to the excerpt
(lib/jxl/memory_manager_internal.h); its outcome is modelled from the spec as
an Option Unit parameter (Allocate -> buffer | failure). -/

/-- An image plane: row index, column index to sample. -/
def Plane : Type := ℕ → ℕ → ℚ

/-- Effective filter input of the vertical scan at row step n for column c:
zero-padded rows n - N - 1 (top) and n + N - 1 (bottom); this is what the four
phase loops of VerticalStrip (lines 334-372) feed to VerticalBlock via
SingleInput (zero sentinel) and TwoInputs. -/
def vertSums (N : ℤ) (ysize : ℕ) (inP : Plane) (c : ℕ) : ℤ → ℚ :=
  fun n =>
    (if 0 ≤ n - N - 1 ∧ n - N - 1 < (ysize:ℤ) then inP (n - N - 1).toNat c else 0) +
    (if 0 ≤ n + N - 1 ∧ n + N - 1 < (ysize:ℤ) then inP (n + N - 1).toNat c else 0)

/-- Output of the vertical pass at column c, row r: the sum of the three
modes' direct-recursion states at scan step r - (-N + 1) = r + N - 1. -/
def colOut (d1 n2 : Fin 3 → ℚ) (N : ℤ) (ysize : ℕ) (inP : Plane) (c r : ℕ) : ℚ :=
  yRec (d1 0) (n2 0) (vertSums N ysize inP c) (-N + 1) ((r : ℤ) + N - 1).toNat +
    (yRec (d1 1) (n2 1) (vertSums N ysize inP c) (-N + 1) ((r : ℤ) + N - 1).toNat +
      yRec (d1 2) (n2 2) (vertSums N ysize inP c) (-N + 1) ((r : ℤ) + N - 1).toNat)

/-- The plane after all strips have been processed: rows 0..ysize-1 of every
column touched by a strip receive the vertical filter output; everything else
keeps its previous contents. -/
def applyStrips (L : ℕ) (d1 n2 : Fin 3 → ℚ) (N : ℤ) (xsize ysize : ℕ)
    (inP outP : Plane) : Plane :=
  fun r c =>
    if r < ysize ∧ accessedCol L xsize c = true then colOut d1 n2 N ysize inP c r
    else outP r c

/-- FastGaussianVertical: allocation outcome, then the three compiled branches
(unroll = 4, 8, 16) running the strip loops, else JXL_UNREACHABLE (modelled as
none).  Returns the status together with the resulting output plane. -/
def fastGaussianVerticalM (L : ℕ) (d1 n2 : Fin 3 → ℚ) (N : ℤ) (xsize ysize : ℕ)
    (alloc : Option Unit) (inP outP : Plane) : Option (Bool × Plane) :=
  match alloc with
  | none => some (false, outP)
  | some _ =>
    if validUnroll L = true then
      some (true, applyStrips L d1 n2 N xsize ysize inP outP)
    else none

/-- All-zero plane, for the C8 witness. -/
def zeroPlane : Plane := fun _ _ => 0


/-! ## Filter designer: CreateRecursiveGaussian (gauss_blur.cc lines 433-524),
embedded over exact real arithmetic.  The 3x3 inversion Inv3x3Matrix and
Mul3x3Vector live in lib/jxl/base/matrix_ops.h, outside the excerpt; they are
modelled from the spec (solve a 3x3 linear system; inversion fails exactly on
a singular matrix).  The two JXL_DASSERT assertion-grade failures (singular
matrix, normalization check) are modelled as returning none. -/

/-- std::round: round half away from zero (line 437). -/
noncomputable def roundAway (x : ℝ) : ℤ :=
  if x < 0 then -⌊-x + 1 / 2⌋ else ⌊x + 1 / 2⌋

/-- Radius of the designed filter: round(3.2795 * sigma + 0.2546), eq (57). -/
noncomputable def radiusOf (σ : ℝ) : ℤ := roundAway (3.2795 * σ + 0.2546)

/-- The radius as the real number used throughout the designer. -/
noncomputable def radiusR (σ : ℝ) : ℝ := (radiusOf σ : ℝ)

/-- A 3x3 real matrix with explicitly named entries, row-major a..i. -/
structure Matrix3x3d where
  a : ℝ
  b : ℝ
  c : ℝ
  d : ℝ
  e : ℝ
  f : ℝ
  g : ℝ
  h : ℝ
  i : ℝ

/-- Determinant of a 3x3 matrix. -/
def det3 (M : Matrix3x3d) : ℝ :=
  M.a * (M.e * M.i - M.f * M.h) - M.b * (M.d * M.i - M.f * M.g)
    + M.c * (M.d * M.h - M.e * M.g)

/-- Modelled from the spec: Inv3x3Matrix computes the inverse by adjugate over
determinant (meaningless entries when the matrix is singular; the singular
case is the failure case and is tested on det3 below). -/
noncomputable def inv3x3 (M : Matrix3x3d) : Matrix3x3d :=
  ⟨(M.e * M.i - M.f * M.h) / det3 M, (M.c * M.h - M.b * M.i) / det3 M,
    (M.b * M.f - M.c * M.e) / det3 M, (M.f * M.g - M.d * M.i) / det3 M,
    (M.a * M.i - M.c * M.g) / det3 M, (M.c * M.d - M.a * M.f) / det3 M,
    (M.d * M.h - M.e * M.g) / det3 M, (M.b * M.g - M.a * M.h) / det3 M,
    (M.a * M.e - M.b * M.d) / det3 M⟩

/-- Modelled from the spec: Mul3x3Vector, matrix times column vector. -/
def mul3x3Vector (M : Matrix3x3d) (v : ℝ × ℝ × ℝ) : ℝ × ℝ × ℝ :=
  (M.a * v.1 + M.b * v.2.1 + M.c * v.2.2,
    M.d * v.1 + M.e * v.2.1 + M.f * v.2.2,
    M.g * v.1 + M.h * v.2.1 + M.i * v.2.2)

/-- Angular frequencies, Table I first row (lines 440-441):
omega[k] = (2k+1) * pi / (2 * radius). -/
noncomputable def omegaOf (r : ℝ) : Fin 3 → ℝ
  | 0 => π / (2 * r)
  | 1 => 3 * (π / (2 * r))
  | 2 => 5 * (π / (2 * r))

/-- Eq (37) (lines 444-446): p_1 = +cot(omega0 / 2), p_3 = -cot(omega1 / 2),
p_5 = +cot(omega2 / 2). -/
noncomputable def pOf (r : ℝ) : Fin 3 → ℝ
  | 0 => 1 / Real.tan (0.5 * omegaOf r 0)
  | 1 => -(1 / Real.tan (0.5 * omegaOf r 1))
  | 2 => 1 / Real.tan (0.5 * omegaOf r 2)

/-- Eq (44) (lines 449-451): r_k = plus-or-minus p_k^2 over sin(omega_k). -/
noncomputable def rOf (r : ℝ) : Fin 3 → ℝ
  | 0 => pOf r 0 * pOf r 0 / Real.sin (omegaOf r 0)
  | 1 => -(pOf r 1 * pOf r 1 / Real.sin (omegaOf r 1))
  | 2 => pOf r 2 * pOf r 2 / Real.sin (omegaOf r 2)

/-- Second part of eq (52) (line 462): D_13 = p_1 r_3 - r_1 p_3. -/
noncomputable def d13 (r : ℝ) : ℝ := pOf r 0 * rOf r 1 - rOf r 0 * pOf r 1

/-- Second part of eq (52) (line 463): D_35 = p_3 r_5 - r_3 p_5. -/
noncomputable def d35 (r : ℝ) : ℝ := pOf r 1 * rOf r 2 - rOf r 1 * pOf r 2

/-- Second part of eq (52) (line 464): D_51 = p_5 r_1 - r_5 p_1. -/
noncomputable def d51 (r : ℝ) : ℝ := pOf r 2 * rOf r 0 - rOf r 2 * pOf r 0

/-- Eq (52), k = 5 (line 468): zeta_15 = D_35 / D_13. -/
noncomputable def zeta15Of (r : ℝ) : ℝ := d35 r * (1 / d13 r)

/-- Eq (52), k = 5 (line 469): zeta_35 = D_51 / D_13. -/
noncomputable def zeta35Of (r : ℝ) : ℝ := d51 r * (1 / d13 r)

/-- The 3x3 coefficient matrix A of lines 471-472: rows p, r (eq 56) and
(zeta_15, zeta_35, 1). -/
noncomputable def designFromRadius (r : ℝ) : Matrix3x3d :=
  ⟨pOf r 0, pOf r 1, pOf r 2, rOf r 0, rOf r 1, rOf r 2,
    zeta15Of r, zeta35Of r, 1⟩

/-- Eq (50) (lines 454-459): rho[k] = exp(-sigma^2/2 * omega_k^2) / radius. -/
noncomputable def rhoOf (σ r : ℝ) : Fin 3 → ℝ :=
  fun k => Real.exp (-0.5 * σ * σ * (omegaOf r k * omegaOf r k)) * (1 / r)

/-- The right-hand side gamma of lines 476-477:
(1, radius^2 - sigma^2 (eq 55), zeta_15 rho_1 + zeta_35 rho_3 + rho_5). -/
noncomputable def gammaOf (σ r : ℝ) : ℝ × ℝ × ℝ :=
  (1, r * r - σ * σ,
    zeta15Of r * rhoOf σ r 0 + zeta35Of r * rhoOf σ r 1 + rhoOf σ r 2)

/-- The solution beta = A^-1 gamma of line 479 (eq 53). -/
noncomputable def betaOf (σ : ℝ) : ℝ × ℝ × ℝ :=
  mul3x3Vector (inv3x3 (designFromRadius (radiusR σ))) (gammaOf σ (radiusR σ))

/-- The normalization check value of line 482 (eq 39):
sum = beta_1 p_1 + beta_3 p_3 + beta_5 p_5. -/
noncomputable def normSum (σ : ℝ) : ℝ :=
  (betaOf σ).1 * pOf (radiusR σ) 0 + (betaOf σ).2.1 * pOf (radiusR σ) 1 +
    (betaOf σ).2.2 * pOf (radiusR σ) 2

/-- The beta components as a Fin 3 indexed family. -/
noncomputable def betaFun (σ : ℝ) : Fin 3 → ℝ
  | 0 => (betaOf σ).1
  | 1 => (betaOf σ).2.1
  | 2 => (betaOf σ).2.2

/-- Eq (33) (line 492): d1[k] = -2 cos(omega_k). -/
noncomputable def d1Of (r : ℝ) : Fin 3 → ℝ :=
  fun k => -2 * Real.cos (omegaOf r k)

/-- Eq (33) (line 491): n2[k] = -beta_k cos(omega_k (radius + 1)). -/
noncomputable def n2Of (σ : ℝ) : Fin 3 → ℝ :=
  fun k => -(betaFun σ k) * Real.cos (omegaOf (radiusR σ) k * (radiusR σ + 1))

/-- The designed filter: radius, the direct-form coefficients n2, d1 of the
vertical pass and the three four-way expansion coefficient groups of the
horizontal pass. -/
structure RecursiveGaussian where
  radius : ℤ
  n2 : Fin 3 → ℝ
  d1 : Fin 3 → ℝ
  mul_in : Fin 3 → Fin 4 → ℝ
  mul_prev : Fin 3 → Fin 4 → ℝ
  mul_prev2 : Fin 3 → Fin 4 → ℝ

/-- CreateRecursiveGaussian (lines 433-524): derive radius and coefficients
from sigma.  The two assertion-grade failure points are the JXL_DASSERT on the
Inv3x3Matrix status (line 475, modelled: the inversion fails exactly when the
matrix is singular) and the JXL_DASSERT normalization check
abs(sum - 1) < 1e-12 (line 483).  No property of sigma itself is checked. -/
noncomputable def createRecursiveGaussian (σ : ℝ) : Option RecursiveGaussian :=
  if det3 (designFromRadius (radiusR σ)) = 0 then none
  else if |normSum σ - 1| < 1e-12 then
    some
      { radius := radiusOf σ
        n2 := n2Of σ
        d1 := d1Of (radiusR σ)
        mul_in := fun k => hwMulIn (n2Of σ k) (d1Of (radiusR σ) k)
        mul_prev := fun k => hwMulPrev (d1Of (radiusR σ) k)
        mul_prev2 := fun k => hwMulPrev2 (d1Of (radiusR σ) k) }
  else none

/-! ## Theorems -/

/-- Helper: two ring slots differ when the row indices differ by 1, 2 or 3. -/
theorem ringIdx_ne (a b : ℤ) (h : ¬ ((4:ℤ) ∣ b - a)) : ringIdx a ≠ ringIdx b := by
  unfold ringIdx
  rw [Ne, ZMod.intCast_eq_intCast_iff_dvd_sub]
  exact h

/-- Helper: ring-buffer storage invariant of the vertical scan.  After t steps,
each of the (at most four) most recently written slots holds the value of the
direct recursion at the step that wrote it, and never-written slots still hold
the memset zero. -/
theorem verticalScan_invariant (d1 n2 : ℚ) (sums : ℤ → ℚ) (n0 : ℤ) :
    ∀ t : ℕ,
      (∀ s : ℕ, s < t → t ≤ s + 4 →
        verticalScan d1 n2 sums n0 t (ringIdx (n0 + s)) = yRec d1 n2 sums n0 s) ∧
      (∀ j : ZMod 4, (∀ s : ℕ, s < t → ringIdx (n0 + s) ≠ j) →
        verticalScan d1 n2 sums n0 t j = 0) := by
  intro t
  induction t with
  | zero =>
    refine ⟨fun s hs _ => absurd hs (Nat.not_lt_zero s), fun j _ => rfl⟩
  | succ t ih =>
    have hread1 : verticalScan d1 n2 sums n0 t (ringIdx (n0 + (t:ℤ) - 1)) =
        (if h : 1 ≤ t then yRec d1 n2 sums n0 (t - 1) else 0) := by
      by_cases h : 1 ≤ t
      · rw [dif_pos h]
        have harg : n0 + (t:ℤ) - 1 = n0 + ((t - 1 : ℕ) : ℤ) := by
          push_cast [h]
          omega
        rw [harg]
        exact ih.1 (t - 1) (by omega) (by omega)
      · rw [dif_neg h]
        have ht0 : t = 0 := by omega
        subst ht0
        exact ih.2 _ (fun s hs _ => absurd hs (Nat.not_lt_zero s))
    have hread2 : verticalScan d1 n2 sums n0 t (ringIdx (n0 + (t:ℤ) - 2)) =
        (if h : 2 ≤ t then yRec d1 n2 sums n0 (t - 2) else 0) := by
      by_cases h : 2 ≤ t
      · rw [dif_pos h]
        have harg : n0 + (t:ℤ) - 2 = n0 + ((t - 2 : ℕ) : ℤ) := by
          push_cast [h]
          omega
        rw [harg]
        exact ih.1 (t - 2) (by omega) (by omega)
      · rw [dif_neg h]
        apply ih.2
        intro s hs
        apply ringIdx_ne
        have hs' : (s : ℤ) < t := by exact_mod_cast hs
        omega
    have hstep : verticalScan d1 n2 sums n0 (t + 1) =
        Function.update (verticalScan d1 n2 sums n0 t) (ringIdx (n0 + t))
          (mulAdd n2 (sums (n0 + t))
            (negMulSub d1 (verticalScan d1 n2 sums n0 t (ringIdx (n0 + (t:ℤ) - 1)))
              (verticalScan d1 n2 sums n0 t (ringIdx (n0 + (t:ℤ) - 2))))) := by
      rfl
    have hval : mulAdd n2 (sums (n0 + t))
        (negMulSub d1 (verticalScan d1 n2 sums n0 t (ringIdx (n0 + (t:ℤ) - 1)))
          (verticalScan d1 n2 sums n0 t (ringIdx (n0 + (t:ℤ) - 2)))) =
        yRec d1 n2 sums n0 t := by
      rw [hread1, hread2]
      unfold mulAdd negMulSub
      match t with
      | 0 => simp [yRec]
      | 1 => simp [yRec]; ring_nf
      | (u + 2) =>
        rw [dif_pos (by omega), dif_pos (by omega)]
        have h1 : u + 2 - 1 = u + 1 := by omega
        have h2 : u + 2 - 2 = u := by omega
        rw [h1, h2]
        show _ = yRec d1 n2 sums n0 (u + 2)
        rw [yRec]
        push_cast
        ring_nf
    constructor
    · intro s hs hs4
      rw [hstep]
      by_cases hst : s = t
      · subst hst
        rw [Function.update_same, hval]
      · have hne : ringIdx (n0 + s) ≠ ringIdx (n0 + t) := by
          apply ringIdx_ne
          have hs' : (s : ℤ) < t := by exact_mod_cast (by omega : s < t)
          have hs4' : (t : ℤ) ≤ (s : ℤ) + 3 := by exact_mod_cast (by omega : t ≤ s + 3)
          omega
        rw [Function.update_noteq hne]
        exact ih.1 s (by omega) (by omega)
    · intro j hj
      rw [hstep]
      have hne : ringIdx (n0 + t) ≠ j := hj t (by omega)
      rw [Function.update_noteq hne.symm]
      exact ih.2 j (fun s hs => hj s (by omega))

/-- Claim C1 (amended): for every mode (any coefficients d1, n2 instantiate the
modes k in {1,3,5}) and every row step, the state update computed by
VerticalBlock equals the direct second-order recursion
y[n] = n2 * sum - d1 * y[n-1] - y[n-2] (with a MINUS on the y[n-2] term),
where y[n-1] and y[n-2] are the two most recently stored mode states, and the
stored state therefore equals the direct recursion value of that step. -/
theorem C1_vertical_update_is_direct_recursion (d1 n2 : ℚ) (sums : ℤ → ℚ) (n0 : ℤ) (t : ℕ) :
    verticalScan d1 n2 sums n0 (t + 1) (ringIdx (n0 + t)) =
      n2 * sums (n0 + t)
        - d1 * verticalScan d1 n2 sums n0 t (ringIdx (n0 + t - 1))
        - verticalScan d1 n2 sums n0 t (ringIdx (n0 + t - 2)) ∧
    verticalScan d1 n2 sums n0 (t + 1) (ringIdx (n0 + t)) = yRec d1 n2 sums n0 t := by
  constructor
  · show verticalBlockModeStep d1 n2 (sums (n0 + t)) (n0 + t) (verticalScan d1 n2 sums n0 t)
        (ringIdx (n0 + t)) = _
    unfold verticalBlockModeStep mulAdd negMulSub
    rw [Function.update_same]
    ring
  · exact (verticalScan_invariant d1 n2 sums n0 (t + 1)).1 t (by omega) (by omega)

/-- Claim C1, counterexample to the formula as written in the spec: with mode
coefficients d1 = 0, n2 = 1 and an impulse input, the state VerticalBlock
stores at step n = 2 is -1, while the spec formula
n2 * sum - d1 * y[n-1] + y[n-2] applied to the two most recently stored states
gives +1. -/
theorem C1_spec_formula_counterexample :
    verticalScan 0 1 cSums 0 3 (ringIdx 2) ≠
      specVerticalUpdate 1 0 (cSums 2) (verticalScan 0 1 cSums 0 2 (ringIdx 1))
        (verticalScan 0 1 cSums 0 2 (ringIdx 0)) := by
  norm_num +decide [verticalScan, verticalBlockModeStep, mulAdd, negMulSub, cSums,
    specVerticalUpdate, Function.update_apply, ringIdx]

/-- Claim C2: for every unrolled step of the horizontal pass, the four outputs
per mode produced via the precomputed expansion coefficients mul_in, mul_prev,
mul_prev2 equal, in exact arithmetic, the four outputs of applying the direct
second-order recursion o_j = n2 * i_j - d1 * o_(j-1) - o_(j-2) sequentially
four times from the same prev/prev2 state and the same inputs i0..i3. -/
theorem C2_expansion_equals_direct_recursion (n d p pp i0 i1 i2 i3 : ℝ) (j : Fin 4) :
    laneOut n d p pp i0 i1 i2 i3 j = directO n d p pp i0 i1 i2 i3 j := by
  fin_cases j <;>
    simp [laneOut, directO, hwMulIn, hwMulPrev, hwMulPrev2] <;> ring

/-- Helper: RoundUpTo does not round down. -/
theorem le_roundUpToI (a L : ℤ) (hL : 0 < L) : a ≤ roundUpToI a L := by
  unfold roundUpToI
  have hdm := Int.ediv_add_emod (a + L - 1) L
  have hlt := Int.emod_lt_of_pos (a + L - 1) hL
  have hnn := Int.emod_nonneg (a + L - 1) (by omega : L ≠ 0)
  have hcomm : (a + L - 1) / L * L = L * ((a + L - 1) / L) := mul_comm _ _
  omega

/-- Claim C6: in the boundary phases of FastGaussian1D, a step computes exactly
what the reference computed on an explicitly zero-padded row computes: the left
operand is in[n-N-1] when n-N-1 >= 0 and 0 otherwise, the right operand is
in[n+N-1] when n+N-1 < xsize and 0 otherwise, and since the step equals a
function of the zero-padded restriction of the row to [0, xsize), no sample
outside the row is read. -/
theorem C6_boundary_zero_padding (mi mp mp2 : Fin 3 → ℚ) (xsize Nr : ℤ)
    (inRow : ℤ → ℚ) (n : ℤ) (st : HBState) (hN : 1 ≤ Nr) (hlo : 1 - Nr ≤ n)
    (hhi : n < xsize) :
    boundaryStep mi mp mp2 xsize Nr inRow n st =
      paddedRefStep mi mp mp2 Nr (padRow xsize inRow) n st := by
  have hsum : boundarySum xsize Nr inRow n =
      padRow xsize inRow (n - Nr - 1) + padRow xsize inRow (n + Nr - 1) := by
    unfold boundarySum leftVal rightVal padRow
    congr 1 <;> split_ifs <;> first | rfl | omega
  unfold boundaryStep paddedRefStep
  rw [hsum]

/-- Claim C6 witness: the boundary step at xsize = 5, N = 1, n = 0 on a
concrete row. -/
theorem C6_witness :
    (1:ℤ) ≤ 1 ∧ (1:ℤ) - 1 ≤ 0 ∧ (0:ℤ) < 5 ∧
    boundaryStep cCoef cCoef cCoef 5 1 cRow 0 cState =
      paddedRefStep cCoef cCoef cCoef 1 (padRow 5 cRow) 0 cState :=
  ⟨le_refl 1, by norm_num, by norm_num,
    C6_boundary_zero_padding cCoef cCoef cCoef 5 1 cRow 0 cState (le_refl 1)
      (by norm_num) (by norm_num)⟩

/-- Claim C10: given radius N >= 1 and lane count L in {1,2,4} (L <= 4
suffices), every iteration of the interior loop of FastGaussian1D - i.e. every
n at least min(first_aligned, xsize) satisfying the loop guard
n < xsize - N + 1 - (JXL_GAUSS_MAX_LANES - 1) - performs only in-bounds
accesses: the two unaligned loads touch indices n-N-1 .. n-N-1+L-1 and
n+N-1 .. n+N-1+L-1 inside [0, xsize), and the store touches n .. n+L-1 inside
[0, xsize). -/
theorem C10_interior_accesses_in_bounds (xsize N L n : ℤ) (hN : 1 ≤ N)
    (hL1 : 1 ≤ L) (hL4 : L ≤ 4) (hlo : min (firstAligned N L) xsize ≤ n)
    (hhi : n < xsize - N + 1 - 3) :
    (0 ≤ n - N - 1 ∧ n - N - 1 + (L - 1) < xsize) ∧
    (0 ≤ n + N - 1 ∧ n + N - 1 + (L - 1) < xsize) ∧
    (0 ≤ n ∧ n + (L - 1) < xsize) := by
  have hfa : N + 1 ≤ firstAligned N L := le_roundUpToI (N + 1) L (by omega)
  rcases le_or_lt (firstAligned N L) xsize with hc | hc
  · rw [min_eq_left hc] at hlo
    omega
  · rw [min_eq_right (le_of_lt hc)] at hlo
    omega

/-- Claim C10 witness: N = 1, L = 4, xsize = 20, n = 8. -/
theorem C10_witness :
    ((1:ℤ) ≤ 1 ∧ (1:ℤ) ≤ 4 ∧ (4:ℤ) ≤ 4 ∧
      min (firstAligned 1 4) 20 ≤ 8 ∧ (8:ℤ) < 20 - 1 + 1 - 3) ∧
    ((0 ≤ (8:ℤ) - 1 - 1 ∧ (8:ℤ) - 1 - 1 + (4 - 1) < 20) ∧
      (0 ≤ (8:ℤ) + 1 - 1 ∧ (8:ℤ) + 1 - 1 + (4 - 1) < 20) ∧
      (0 ≤ (8:ℤ) ∧ (8:ℤ) + (4 - 1) < 20)) :=
  ⟨⟨le_refl 1, by norm_num, le_refl 4, by decide, by norm_num⟩,
    C10_interior_accesses_in_bounds 20 1 4 8 (le_refl 1) (by norm_num) (le_refl 4)
      (by decide) (by norm_num)⟩

/-- Helper: a number of items is at most align times their ceiling-div count. -/
theorem nat_le_mul_ceilDiv (b L : ℕ) (hL : 0 < L) : b ≤ L * ((b + L - 1) / L) := by
  rcases Nat.eq_zero_or_pos b with rfl | hb
  · simp
  · have h1 : b + L - 1 = (b - 1) + L := by omega
    rw [h1, Nat.add_div_right _ hL]
    have hdm := Nat.div_add_mod (b - 1) L
    have hm : (b - 1) % L < L := Nat.mod_lt _ hL
    have hms : L * ((b - 1) / L + 1) = L * ((b - 1) / L) + L := Nat.mul_succ L _
    omega

/-- Helper: fast_pace is positive for a positive lane count. -/
theorem fastPace_pos (L : ℕ) (hL : 0 < L) : 0 < fastPace L := by
  have h : 0 < unrollOf L := by
    unfold unrollOf
    omega
  exact Nat.mul_pos h hL

/-- Helper: the number of full-width strips equals the quotient of the
remaining columns by fast_pace. -/
theorem fullStarts_length (fp xsize : ℕ) (hfp : 0 < fp) :
    ∀ x, (fullStarts fp xsize x).length = (xsize - x) / fp := by
  intro x
  induction x using fullStarts.induct fp xsize with
  | case1 x h ih =>
    rw [fullStarts, dif_pos h, List.length_cons, ih]
    have h2 : fp ≤ xsize - x := by omega
    rw [Nat.div_eq_sub_div hfp h2]
    have h3 : xsize - x - fp = xsize - (x + fp) := by omega
    rw [h3]
  | case2 x h =>
    rw [fullStarts, dif_neg h, List.length_nil]
    have h2 : xsize - x < fp := by omega
    rw [Nat.div_eq_of_lt h2]

/-- Helper: a column is covered by exactly one full-width strip when it lies
in the prefix those strips tile, else by none. -/
theorem countP_fullStarts (fp xsize c : ℕ) (hfp : 0 < fp) :
    ∀ x, ((fullStarts fp xsize x).map (fun s => (s, fp))).countP (inStrip c) =
      if x ≤ c ∧ c < x + fp * ((xsize - x) / fp) then 1 else 0 := by
  intro x
  induction x using fullStarts.induct fp xsize with
  | case1 x h ih =>
    rw [fullStarts, dif_pos h, List.map_cons, List.countP_cons, ih]
    have h2 : fp ≤ xsize - x := by omega
    rw [Nat.div_eq_sub_div hfp h2]
    have h3 : xsize - x - fp = xsize - (x + fp) := by omega
    rw [h3, Nat.mul_succ]
    have hstrip : (inStrip c (x, fp) = true) ↔ (x ≤ c ∧ c < x + fp) := by
      simp [inStrip]
    by_cases hx : inStrip c (x, fp) = true
    · rw [if_pos hx]
      have := hstrip.mp hx
      split_ifs <;> omega
    · rw [if_neg hx]
      rw [hstrip] at hx
      split_ifs <;> omega
  | case2 x h =>
    rw [fullStarts, dif_neg h, List.map_nil, List.countP_nil]
    have h2 : xsize - x < fp := by omega
    rw [Nat.div_eq_of_lt h2]
    split_ifs <;> omega

/-- Helper: a column is covered by exactly one remainder strip when it lies in
the ceiling-div region those strips tile, else by none. -/
theorem countP_remStarts (L xsize c : ℕ) (hL : 0 < L) :
    ∀ x, ((remStarts L xsize x).map (fun s => (s, L))).countP (inStrip c) =
      if x ≤ c ∧ c < x + L * ((xsize - x + L - 1) / L) then 1 else 0 := by
  intro x
  induction x using remStarts.induct L xsize with
  | case1 x h ih =>
    rw [remStarts, dif_pos h, List.map_cons, List.countP_cons, ih]
    have hq : (xsize - x + L - 1) / L = (xsize - (x + L) + L - 1) / L + 1 := by
      have e1 : xsize - x + L - 1 = (xsize - x - 1) + L := by omega
      rw [e1, Nat.add_div_right _ hL]
      rcases le_or_lt (x + L) xsize with hc | hc
      · have e2 : xsize - (x + L) + L - 1 = xsize - x - 1 := by omega
        rw [e2]
      · have e2 : xsize - (x + L) = 0 := by omega
        rw [e2]
        have e3 : (0 + L - 1) / L = 0 := Nat.div_eq_of_lt (by omega)
        rw [e3]
        have e4 : xsize - x - 1 < L := by omega
        rw [Nat.div_eq_of_lt e4]
    rw [hq, Nat.mul_succ]
    have hstrip : (inStrip c (x, L) = true) ↔ (x ≤ c ∧ c < x + L) := by
      simp [inStrip]
    by_cases hx : inStrip c (x, L) = true
    · rw [if_pos hx]
      have := hstrip.mp hx
      split_ifs <;> omega
    · rw [if_neg hx]
      rw [hstrip] at hx
      split_ifs <;> omega
  | case2 x h =>
    rw [remStarts, dif_neg h, List.map_nil, List.countP_nil]
    have h2 : xsize - x = 0 := by omega
    rw [h2]
    have e3 : (0 + L - 1) / L = 0 := Nat.div_eq_of_lt (by omega)
    rw [e3]
    split_ifs <;> omega

/-- Claim C7: for every xsize, every column index in [0, xsize) is processed
by exactly one strip invocation of FastGaussianVertical - the full-width
strips (kVectors = unroll in {4,8,16}) tile a prefix in steps of fast_pace and
the kVectors = 1 remainder strips cover the rest - regardless of xsize modulo
the vector width. -/
theorem C7_each_column_exactly_one_strip (L xsize c : ℕ) (hL : 0 < L)
    (_hvalid : validUnroll L = true) (hc : c < xsize) :
    (verticalStrips L xsize).countP (inStrip c) = 1 := by
  have hfp : 0 < fastPace L := fastPace_pos L hL
  unfold verticalStrips
  rw [List.countP_append, fullStarts_length (fastPace L) xsize hfp 0,
    countP_fullStarts (fastPace L) xsize c hfp 0, countP_remStarts L xsize c hL]
  simp only [Nat.sub_zero, Nat.zero_add]
  have hE : fastPace L * (xsize / fastPace L) ≤ xsize := by
    rw [mul_comm]
    exact Nat.div_mul_le_self _ _
  have hceil := nat_le_mul_ceilDiv (xsize - fastPace L * (xsize / fastPace L)) L hL
  split_ifs <;> omega

/-- Claim C7 witness: lane count 4, xsize = 18 (not a multiple of the vector
width), column 17. -/
theorem C7_witness :
    0 < 4 ∧ validUnroll 4 = true ∧ 17 < 18 ∧
    (verticalStrips 4 18).countP (inStrip 17) = 1 :=
  ⟨by norm_num, rfl, by norm_num,
    C7_each_column_exactly_one_strip 4 18 17 (by norm_num) rfl (by norm_num)⟩

/-- Helper: every full-width strip lies entirely below xsize. -/
theorem mem_fullStarts (fp xsize : ℕ) :
    ∀ x s, s ∈ fullStarts fp xsize x → s + fp ≤ xsize := by
  intro x
  induction x using fullStarts.induct fp xsize with
  | case1 x h ih =>
    intro s hs
    rw [fullStarts, dif_pos h] at hs
    rcases List.mem_cons.mp hs with rfl | hs'
    · exact h.2
    · exact ih s hs'
  | case2 x h =>
    intro s hs
    rw [fullStarts, dif_neg h] at hs
    simp at hs

/-- Helper: every remainder strip starts below xsize, at the resume point plus
a multiple of the lane count. -/
theorem mem_remStarts (L xsize : ℕ) :
    ∀ x s, s ∈ remStarts L xsize x → s < xsize ∧ ∃ k, s = x + L * k := by
  intro x
  induction x using remStarts.induct L xsize with
  | case1 x h ih =>
    intro s hs
    rw [remStarts, dif_pos h] at hs
    rcases List.mem_cons.mp hs with rfl | hs'
    · exact ⟨h.2, 0, by omega⟩
    · obtain ⟨hlt, k, hk⟩ := ih s hs'
      refine ⟨hlt, k + 1, ?_⟩
      rw [hk]
      ring
  | case2 x h =>
    intro s hs
    rw [remStarts, dif_neg h] at hs
    simp at hs

/-- Claim C9 (amended): every column offset accessed by the strip
decomposition is strictly below RoundUpTo(xsize, Lanes) = Lanes times the
ceiling of xsize / Lanes.  For the scalar target (Lanes = 1) this bound is
xsize, recovering the original claim; for a vector target the final
kVectors = 1 strip may touch offsets in [xsize, RoundUpTo(xsize, Lanes)) when
Lanes does not divide xsize. -/
theorem C9_access_bound (L xsize o : ℕ) (hL : 0 < L)
    (_hvalid : validUnroll L = true) (hacc : accessedCol L xsize o = true) :
    o < L * ((xsize + L - 1) / L) := by
  unfold accessedCol at hacc
  rw [List.any_eq_true] at hacc
  obtain ⟨sw, hmem, hin⟩ := hacc
  have hin' : sw.1 ≤ o ∧ o < sw.1 + sw.2 := by simpa [inStrip] using hin
  unfold verticalStrips at hmem
  rw [List.mem_append] at hmem
  have hx : xsize ≤ L * ((xsize + L - 1) / L) := nat_le_mul_ceilDiv xsize L hL
  rcases hmem with hmem | hmem
  · rw [List.mem_map] at hmem
    obtain ⟨s, hs, rfl⟩ := hmem
    have hb := mem_fullStarts (fastPace L) xsize 0 s hs
    simp only at hin'
    omega
  · rw [List.mem_map] at hmem
    obtain ⟨s, hs, rfl⟩ := hmem
    obtain ⟨hlt, k, hk⟩ := mem_remStarts L xsize _ s hs
    simp only at hin'
    have hbase : fastPace L * (fullStarts (fastPace L) xsize 0).length =
        L * (unrollOf L * (fullStarts (fastPace L) xsize 0).length) := by
      unfold fastPace
      ring
    have hm : s = L * (unrollOf L * (fullStarts (fastPace L) xsize 0).length + k) := by
      rw [hk, hbase]
      ring
    set m := unrollOf L * (fullStarts (fastPace L) xsize 0).length + k with hmdef
    have hcomm : m * L = L * m := mul_comm m L
    have hmle : m ≤ (xsize - 1) / L := by
      rw [Nat.le_div_iff_mul_le hL]
      omega
    have hdiv : (xsize - 1) / L + 1 = (xsize + L - 1) / L := by
      have e1 : xsize + L - 1 = (xsize - 1) + L := by omega
      rw [e1, Nat.add_div_right _ hL]
    have hfin : s + L ≤ L * ((xsize + L - 1) / L) := by
      calc s + L = L * m + L := by omega
        _ ≤ L * ((xsize - 1) / L) + L := by
            have := Nat.mul_le_mul_left L hmle
            omega
        _ = L * ((xsize - 1) / L + 1) := by rw [Nat.mul_succ]
        _ = L * ((xsize + L - 1) / L) := by rw [hdiv]
    omega

/-- Helper: the concrete strip decomposition for lane count 4 and xsize 18:
one full-width strip of 16 columns, one remainder strip of 4 columns. -/
theorem verticalStrips_4_18 : verticalStrips 4 18 = [(0, 16), (16, 4)] := by
  have h1 : fullStarts 16 18 0 = [0] := by
    rw [fullStarts, dif_pos (by norm_num), fullStarts, dif_neg (by norm_num)]
  have h2 : remStarts 4 18 16 = [16] := by
    rw [remStarts, dif_pos (by norm_num), remStarts, dif_neg (by norm_num)]
  unfold verticalStrips
  have hfp : fastPace 4 = 16 := rfl
  rw [hfp, h1]
  simp [h2]

/-- Helper: with lane count 4 and xsize 18, column offset 19 is accessed. -/
theorem accessedCol_4_18_19 : accessedCol 4 18 19 = true := by
  unfold accessedCol
  rw [verticalStrips_4_18]
  decide

/-- Claim C9, counterexample to the original in-bounds statement: with native
vector width 4 and xsize = 18, the last kVectors = 1 strip starts at column 16
and its full-vector loads and stores touch offset 19, which is not strictly
less than xsize. -/
theorem C9_out_of_row_counterexample : accessedCol 4 18 19 = true ∧ ¬ (19 < 18) :=
  ⟨accessedCol_4_18_19, by norm_num⟩

/-- Claim C9 witness: the amended bound at lane count 4, xsize = 18,
offset 19: 19 < 4 * ceil(18 / 4) = 20. -/
theorem C9_witness :
    0 < 4 ∧ validUnroll 4 = true ∧ accessedCol 4 18 19 = true ∧
    19 < 4 * ((18 + 4 - 1) / 4) :=
  ⟨by norm_num, rfl, accessedCol_4_18_19,
    C9_access_bound 4 18 19 (by norm_num) rfl accessedCol_4_18_19⟩

/-- Claim C8: FastGaussianVertical returns a failure status if and only if the
scratch allocation fails; the allocation happens before any strip processing,
so on failure the output plane is unchanged, and on allocation success (with a
supported unroll width) the call returns success with the strip-processed
plane. -/
theorem C8_fails_iff_alloc_fails (L : ℕ) (d1 n2 : Fin 3 → ℚ) (N : ℤ)
    (xsize ysize : ℕ) (inP outP : Plane) :
    fastGaussianVerticalM L d1 n2 N xsize ysize none inP outP = some (false, outP) ∧
    (validUnroll L = true →
      fastGaussianVerticalM L d1 n2 N xsize ysize (some ()) inP outP =
        some (true, applyStrips L d1 n2 N xsize ysize inP outP)) := by
  constructor
  · rfl
  · intro hv
    unfold fastGaussianVerticalM
    rw [if_pos hv]

/-- Claim C8 witness: lane count 4 at a concrete plane: allocation failure
leaves the plane untouched and reports failure; allocation success reports
success. -/
theorem C8_witness :
    validUnroll 4 = true ∧
    fastGaussianVerticalM 4 cCoef cCoef 1 18 10 none zeroPlane zeroPlane =
      some (false, zeroPlane) ∧
    fastGaussianVerticalM 4 cCoef cCoef 1 18 10 (some ()) zeroPlane zeroPlane =
      some (true, applyStrips 4 cCoef cCoef 1 18 10 zeroPlane zeroPlane) :=
  ⟨rfl, (C8_fails_iff_alloc_fails 4 cCoef cCoef 1 18 10 zeroPlane zeroPlane).1,
    (C8_fails_iff_alloc_fails 4 cCoef cCoef 1 18 10 zeroPlane zeroPlane).2 rfl⟩

/-- Helper: for a non-singular matrix, the first row dotted with the adjugate
solution reproduces the first right-hand-side component - this is exactly why
the line 482 normalization sum is 1: the first row of A is (p_1, p_3, p_5) and
gamma_0 = 1. -/
theorem solve_first_row (M : Matrix3x3d) (v : ℝ × ℝ × ℝ) (hdet : det3 M ≠ 0) :
    M.a * (mul3x3Vector (inv3x3 M) v).1 + M.b * (mul3x3Vector (inv3x3 M) v).2.1 +
      M.c * (mul3x3Vector (inv3x3 M) v).2.2 = v.1 := by
  obtain ⟨a, b, c, d, e, f, g, h, i⟩ := M
  obtain ⟨x, y, z⟩ := v
  unfold mul3x3Vector inv3x3 at *
  unfold det3 at *
  simp only at *
  field_simp
  ring

/-- Helper: the normalization sum of line 482 is exactly 1 whenever the matrix
inversion succeeds. -/
theorem normSum_eq_one (σ : ℝ) (hdet : det3 (designFromRadius (radiusR σ)) ≠ 0) :
    normSum σ = 1 := by
  have h := solve_first_row (designFromRadius (radiusR σ)) (gammaOf σ (radiusR σ)) hdet
  unfold normSum betaOf
  have ha : (designFromRadius (radiusR σ)).a = pOf (radiusR σ) 0 := rfl
  have hb : (designFromRadius (radiusR σ)).b = pOf (radiusR σ) 1 := rfl
  have hc : (designFromRadius (radiusR σ)).c = pOf (radiusR σ) 2 := rfl
  have hg : (gammaOf σ (radiusR σ)).1 = 1 := rfl
  rw [ha, hb, hc, hg] at h
  linear_combination h

/-- Helper: the designer model returns a filter exactly when the derived 3x3
matrix is non-singular - sigma itself is never validated. -/
theorem createRG_isSome_iff (σ : ℝ) :
    (createRecursiveGaussian σ).isSome = true ↔
      det3 (designFromRadius (radiusR σ)) ≠ 0 := by
  unfold createRecursiveGaussian
  by_cases hdet : det3 (designFromRadius (radiusR σ)) = 0
  · rw [if_pos hdet]
    simp [hdet]
  · rw [if_neg hdet, if_pos]
    · simp [hdet]
    · rw [normSum_eq_one σ hdet]
      norm_num

/-- Claim C4: for every sigma for which the derived 3x3 matrix is
non-singular (the inversion of line 473 succeeds), the derived coefficients
satisfy the unit-DC-gain identity beta_1 p_1 + beta_3 p_3 + beta_5 p_5 == 1
within 1e-12 (in exact arithmetic the sum is exactly 1), so the line 483
assertion holds. -/
theorem C4_normalization_holds (σ : ℝ)
    (hdet : det3 (designFromRadius (radiusR σ)) ≠ 0) :
    normSum σ = 1 ∧ |normSum σ - 1| < 1e-12 := by
  have h := normSum_eq_one σ hdet
  rw [h]
  norm_num

/-- Helper: product of square roots. -/
theorem sqrt3_mul_sqrt2 : √3 * √2 = √6 := by
  rw [← Real.sqrt_mul (by norm_num : (0:ℝ) ≤ 3)]
  norm_num

/-- Helper: product of square roots. -/
theorem sqrt3_mul_sqrt6 : √3 * √6 = 3 * √2 := by
  rw [← Real.sqrt_mul (by norm_num : (0:ℝ) ≤ 3)]
  rw [show (3 * 6 : ℝ) = 3 ^ 2 * 2 by norm_num,
    Real.sqrt_mul (by positivity), Real.sqrt_sq (by norm_num)]

/-- Helper: square root of 3 squared. -/
theorem sqrt3_sq : √3 ^ 2 = 3 := Real.sq_sqrt (by norm_num)

/-- Helper: square root of 3 is less than 2. -/
theorem sqrt3_lt_two : √3 < 2 := by
  nlinarith [sqrt3_sq, Real.sqrt_nonneg 3]

/-- Helper: cosine of pi/12. -/
theorem cos_pi_div_twelve' : Real.cos (π / 12) = (√6 + √2) / 4 := by
  have h : (π / 12 : ℝ) = π / 3 - π / 4 := by ring
  rw [h, Real.cos_sub, Real.cos_pi_div_three, Real.cos_pi_div_four,
    Real.sin_pi_div_three, Real.sin_pi_div_four]
  nlinarith [sqrt3_mul_sqrt2]

/-- Helper: sine of pi/12. -/
theorem sin_pi_div_twelve' : Real.sin (π / 12) = (√6 - √2) / 4 := by
  have h : (π / 12 : ℝ) = π / 3 - π / 4 := by ring
  rw [h, Real.sin_sub, Real.cos_pi_div_three, Real.cos_pi_div_four,
    Real.sin_pi_div_three, Real.sin_pi_div_four]
  nlinarith [sqrt3_mul_sqrt2]

/-- Helper: tangent of pi/12. -/
theorem tan_pi_div_twelve' : Real.tan (π / 12) = 2 - √3 := by
  rw [Real.tan_eq_sin_div_cos, sin_pi_div_twelve', cos_pi_div_twelve']
  have h6 : √6 + √2 ≠ 0 := by positivity
  field_simp
  linear_combination sqrt3_mul_sqrt6 + sqrt3_mul_sqrt2


/-- Helper: 2 - sqrt 3 is nonzero. -/
theorem two_sub_sqrt3_ne : (2 : ℝ) - √3 ≠ 0 := by
  have h := sqrt3_lt_two
  intro hc
  linarith

/-- Helper: the radius designed for sigma = -1 is -3 (no sigma validation
happens anywhere in the designer). -/
theorem radiusOf_neg_one : radiusOf (-1) = -3 := by
  unfold radiusOf roundAway
  rw [if_pos (by norm_num : (3.2795 : ℝ) * (-1) + 0.2546 < 0)]
  have h : -((3.2795:ℝ) * (-1) + 0.2546) + 1 / 2 = 3.5249 := by norm_num
  rw [h]
  have h2 : ⌊(3.5249 : ℝ)⌋ = 3 := by
    rw [Int.floor_eq_iff]
    norm_num
  rw [h2]

/-- Helper: the real radius at sigma = -1. -/
theorem radiusR_neg_one : radiusR (-1) = -3 := by
  unfold radiusR
  rw [radiusOf_neg_one]
  norm_num

/-- Helper: first angular frequency at radius -3. -/
theorem omega0_neg3 : omegaOf (-3) 0 = -(π / 6) := by
  show π / (2 * (-3)) = -(π / 6)
  ring

/-- Helper: second angular frequency at radius -3. -/
theorem omega1_neg3 : omegaOf (-3) 1 = -(π / 2) := by
  show 3 * (π / (2 * (-3))) = -(π / 2)
  ring

/-- Helper: third angular frequency at radius -3. -/
theorem omega2_neg3 : omegaOf (-3) 2 = -(5 * π / 6) := by
  show 5 * (π / (2 * (-3))) = -(5 * π / 6)
  ring

/-- Helper: p_1 at radius -3. -/
theorem p0_neg3 : pOf (-3) 0 = -(2 + √3) := by
  show 1 / Real.tan (0.5 * omegaOf (-3) 0) = -(2 + √3)
  have h : (0.5 : ℝ) * omegaOf (-3) 0 = -(π / 12) := by
    rw [omega0_neg3]
    ring
  rw [h, Real.tan_neg, tan_pi_div_twelve']
  rw [div_eq_iff (by simpa using neg_ne_zero.mpr two_sub_sqrt3_ne)]
  linear_combination sqrt3_sq

/-- Helper: p_3 at radius -3. -/
theorem p1_neg3 : pOf (-3) 1 = 1 := by
  show -(1 / Real.tan (0.5 * omegaOf (-3) 1)) = 1
  have h : (0.5 : ℝ) * omegaOf (-3) 1 = -(π / 4) := by
    rw [omega1_neg3]
    ring
  rw [h, Real.tan_neg, Real.tan_pi_div_four]
  norm_num

/-- Helper: p_5 at radius -3. -/
theorem p2_neg3 : pOf (-3) 2 = -(2 - √3) := by
  show 1 / Real.tan (0.5 * omegaOf (-3) 2) = -(2 - √3)
  have h : (0.5 : ℝ) * omegaOf (-3) 2 = -(π / 2 - π / 12) := by
    rw [omega2_neg3]
    ring
  rw [h, Real.tan_neg, Real.tan_pi_div_two_sub, tan_pi_div_twelve']
  rw [div_eq_iff (by simpa using inv_ne_zero two_sub_sqrt3_ne)]
  field_simp
  rw [div_self two_sub_sqrt3_ne]

/-- Helper: r_1 at radius -3. -/
theorem r0_neg3 : rOf (-3) 0 = -14 - 8 * √3 := by
  show pOf (-3) 0 * pOf (-3) 0 / Real.sin (omegaOf (-3) 0) = -14 - 8 * √3
  rw [p0_neg3, omega0_neg3, Real.sin_neg, Real.sin_pi_div_six]
  rw [div_eq_iff (by norm_num : -(1/2 : ℝ) ≠ 0)]
  linear_combination sqrt3_sq

/-- Helper: r_3 at radius -3. -/
theorem r1_neg3 : rOf (-3) 1 = 1 := by
  show -(pOf (-3) 1 * pOf (-3) 1 / Real.sin (omegaOf (-3) 1)) = 1
  rw [p1_neg3, omega1_neg3, Real.sin_neg, Real.sin_pi_div_two]
  norm_num

/-- Helper: r_5 at radius -3. -/
theorem r2_neg3 : rOf (-3) 2 = -14 + 8 * √3 := by
  show pOf (-3) 2 * pOf (-3) 2 / Real.sin (omegaOf (-3) 2) = -14 + 8 * √3
  have h : Real.sin (omegaOf (-3) 2) = -(1/2) := by
    rw [omega2_neg3, Real.sin_neg]
    rw [show (5:ℝ) * π / 6 = π - π / 6 by ring, Real.sin_pi_sub, Real.sin_pi_div_six]
  rw [p2_neg3, h]
  rw [div_eq_iff (by norm_num : -(1/2 : ℝ) ≠ 0)]
  linear_combination sqrt3_sq

/-- Helper: D_13 at radius -3. -/
theorem d13_neg3 : d13 (-3) = 12 + 7 * √3 := by
  unfold d13
  rw [p0_neg3, p1_neg3, r0_neg3, r1_neg3]
  ring

/-- Helper: D_35 at radius -3. -/
theorem d35_neg3 : d35 (-3) = -12 + 7 * √3 := by
  unfold d35
  rw [p1_neg3, p2_neg3, r1_neg3, r2_neg3]
  ring

/-- Helper: D_51 at radius -3. -/
theorem d51_neg3 : d51 (-3) = 4 * √3 := by
  unfold d51
  rw [p0_neg3, p2_neg3, r0_neg3, r2_neg3]
  ring

/-- Helper: D_13 at radius -3 is nonzero. -/
theorem d13_neg3_ne : d13 (-3) ≠ 0 := by
  rw [d13_neg3]
  positivity

/-- Helper: zeta_15 at radius -3. -/
theorem zeta15_neg3 : zeta15Of (-3) = 97 - 56 * √3 := by
  unfold zeta15Of
  rw [d35_neg3]
  rw [show d13 (-3) = 12 + 7 * √3 from d13_neg3]
  rw [mul_one_div, div_eq_iff (by positivity : (12:ℝ) + 7 * √3 ≠ 0)]
  linear_combination 392 * sqrt3_sq

/-- Helper: zeta_35 at radius -3. -/
theorem zeta35_neg3 : zeta35Of (-3) = 28 - 16 * √3 := by
  unfold zeta35Of
  rw [d51_neg3]
  rw [show d13 (-3) = 12 + 7 * √3 from d13_neg3]
  rw [mul_one_div, div_eq_iff (by positivity : (12:ℝ) + 7 * √3 ≠ 0)]
  linear_combination 112 * sqrt3_sq

/-- Helper: the design matrix determinant at radius -3. -/
theorem det3_design_neg3 : det3 (designFromRadius (-3)) = -2520 + 1470 * √3 := by
  have h : det3 (designFromRadius (-3)) =
      pOf (-3) 0 * (rOf (-3) 1 * 1 - rOf (-3) 2 * zeta35Of (-3)) -
        pOf (-3) 1 * (rOf (-3) 0 * 1 - rOf (-3) 2 * zeta15Of (-3)) +
        pOf (-3) 2 * (rOf (-3) 0 * zeta35Of (-3) - rOf (-3) 1 * zeta15Of (-3)) := rfl
  rw [h, p0_neg3, p1_neg3, p2_neg3, r0_neg3, r1_neg3, r2_neg3, zeta15_neg3,
    zeta35_neg3]
  linear_combination (-456) * sqrt3_sq

/-- Helper: the design matrix at radius -3 is non-singular. -/
theorem det3_design_neg3_ne : det3 (designFromRadius (-3)) ≠ 0 := by
  rw [det3_design_neg3]
  intro hc
  have h1 : √3 = 12 / 7 := by linarith
  have h2 := sqrt3_sq
  rw [h1] at h2
  norm_num at h2

/-- Claim C3 (amended): the designer fails (assertion-grade, modelled as none)
if and only if the derived 3x3 coefficient matrix is singular.  Sigma itself
is never validated: every sigma whose derived matrix is non-singular - whether
positive or not - yields a RecursiveGaussian without failure. -/
theorem C3_fails_iff_matrix_singular (σ : ℝ) :
    (createRecursiveGaussian σ).isSome = true ↔
      det3 (designFromRadius (radiusR σ)) ≠ 0 :=
  createRG_isSome_iff σ

/-- Claim C3, counterexample to the original if-and-only-if: sigma = -1 is
non-positive (the claim would require failure), yet the designer succeeds,
because the derived matrix at radius -3 is non-singular and no sigma check
exists. -/
theorem C3_nonpositive_sigma_counterexample :
    (-1 : ℝ) ≤ 0 ∧ (createRecursiveGaussian (-1)).isSome = true :=
  ⟨by norm_num,
    (createRG_isSome_iff (-1)).mpr
      (by rw [radiusR_neg_one]; exact det3_design_neg3_ne)⟩

/-- Claim C4 witness: at sigma = -1 the derived matrix is non-singular and
the normalization identity holds. -/
theorem C4_witness :
    det3 (designFromRadius (radiusR (-1))) ≠ 0 ∧
    (normSum (-1) = 1 ∧ |normSum (-1) - 1| < 1e-12) := by
  have hd : det3 (designFromRadius (radiusR (-1))) ≠ 0 := by
    rw [radiusR_neg_one]
    exact det3_design_neg3_ne
  exact ⟨hd, C4_normalization_holds (-1) hd⟩

/-- Claim C5 (amended): the radius field always equals
round(3.2795 sigma + 0.2546), and it is at least 1 exactly when
3.2795 sigma + 0.2546 is at least one half (sigma of roughly 0.0749 or more);
for smaller accepted sigma the radius is 0 or negative. -/
theorem C5_radius_formula_and_threshold (σ : ℝ) :
    radiusOf σ = roundAway (3.2795 * σ + 0.2546) ∧
    (1 ≤ radiusOf σ ↔ 1 / 2 ≤ 3.2795 * σ + 0.2546) := by
  refine ⟨rfl, ?_⟩
  unfold radiusOf roundAway
  by_cases hw : 3.2795 * σ + 0.2546 < 0
  · rw [if_pos hw]
    constructor
    · intro h
      exfalso
      have h0 : (0:ℤ) ≤ ⌊-(3.2795 * σ + 0.2546) + 1/2⌋ :=
        Int.floor_nonneg.mpr (by linarith)
      omega
    · intro h
      linarith
  · rw [if_neg hw]
    rw [Int.le_floor]
    push_cast
    constructor <;> intro <;> linarith

/-- Claim C5, counterexample to the radius lower bound: sigma = 1/20 is
positive (valid per the designer's contract, and the designer validates
nothing), yet the radius is round(0.418575) = 0, not at least 1; moreover
sigma = -1 is outright accepted (the designer returns a filter) with
radius -3, also not at least 1. -/
theorem C5_small_sigma_counterexample :
    ((0 : ℝ) < 1/20 ∧ radiusOf (1/20 : ℝ) = 0 ∧ ¬ (1 ≤ radiusOf (1/20 : ℝ))) ∧
    ((createRecursiveGaussian (-1)).isSome = true ∧ radiusOf (-1) = -3 ∧
      ¬ (1 ≤ radiusOf (-1))) := by
  have h : radiusOf (1/20 : ℝ) = 0 := by
    unfold radiusOf roundAway
    rw [if_neg (by norm_num : ¬ ((3.2795:ℝ) * (1/20) + 0.2546 < 0))]
    have e : (3.2795:ℝ) * (1/20) + 0.2546 + 1/2 = 0.918575 := by norm_num
    rw [e]
    rw [Int.floor_eq_iff]
    norm_num
  refine ⟨⟨by norm_num, h, ?_⟩, ?_, radiusOf_neg_one, ?_⟩
  · rw [h]
    norm_num
  · exact (createRG_isSome_iff (-1)).mpr
      (by rw [radiusR_neg_one]; exact det3_design_neg3_ne)
  · rw [radiusOf_neg_one]
    norm_num
